import Mathlib

/-!
# Verification of the Review Board view-layer specification

Shallow embedding of the server-side view and API layer of the Review Board
code-review application, as described by its specification and exercised by
`reviewboard/reviews/tests/test_views.py`.  The repository slice holds the
test suite and the Web API root resource (`reviewboard/webapi/resources/root.py`);
the view functions themselves are not part of the slice, so they are modelled
from the specification, while the binary payload reader is translated from the
test suite's `_get_fragments` parsing loop.
-/

namespace ReviewBoard

/-! ## Little-endian 32-bit framing

The fragments endpoint packs each entry as a 4-byte unsigned little-endian
comment ID, a 4-byte unsigned little-endian byte length, then the UTF-8 bytes.
Bytes are modelled as natural numbers below 256. -/

/-- Modelled from the spec: serialize a number as 4 unsigned little-endian
bytes (the `<L` struct format of the wire protocol). -/
def le32 (n : Nat) : List Nat :=
  [n % 256, n / 256 % 256, n / 65536 % 256, n / 16777216 % 256]

/-- Reassemble a 32-bit value from 4 little-endian bytes, as the test-suite
reader's `struct.unpack_from` with format `<L` does. -/
def readLE32 (b0 b1 b2 b3 : Nat) : Nat :=
  b0 + 256 * b1 + 65536 * b2 + 16777216 * b3

theorem le32_length (n : Nat) : (le32 n).length = 4 := rfl

theorem readLE32_le32 (n : Nat) (h : n < 4294967296) :
    readLE32 (n % 256) (n / 256 % 256) (n / 65536 % 256) (n / 16777216 % 256) = n := by
  unfold readLE32
  omega

/-! ## UTF-8 codec

Fragments are HTML text; the wire carries their UTF-8 encoding.  Text is
modelled as a list of Unicode code points (naturals below 0x110000, excluding
the surrogate range). -/

/-- A Unicode scalar value: in range and not a surrogate. -/
def ValidCodepoint (c : Nat) : Prop :=
  c < 1114112 ∧ ¬(55296 ≤ c ∧ c < 57344)

instance (c : Nat) : Decidable (ValidCodepoint c) := by
  unfold ValidCodepoint; infer_instance

/-- Modelled from the spec: standard UTF-8 encoding of one code point. -/
def utf8EncodeChar (c : Nat) : List Nat :=
  if c < 128 then
    [c]
  else if c < 2048 then
    [192 + c / 64, 128 + c % 64]
  else if c < 65536 then
    [224 + c / 4096, 128 + c / 64 % 64, 128 + c % 64]
  else
    [240 + c / 262144, 128 + c / 4096 % 64, 128 + c / 64 % 64, 128 + c % 64]

/-- Modelled from the spec: UTF-8 encoding of a code-point sequence. -/
def utf8Encode (cps : List Nat) : List Nat :=
  (cps.map utf8EncodeChar).flatten

/-- Decode a single UTF-8 code point from the front of a byte sequence,
rejecting malformed input (continuation-byte shape, overlong forms,
surrogates, out-of-range values); returns the code point and the
remaining bytes. -/
def utf8DecodeChar : List Nat → Option (Nat × List Nat)
  | [] => none
  | b :: rest =>
    if b < 128 then
      some (b, rest)
    else if b < 192 then
      none
    else if b < 224 then
      if 1 ≤ rest.length ∧ 128 ≤ rest.headI ∧ rest.headI < 192 ∧
          128 ≤ (b - 192) * 64 + (rest.headI - 128) then
        some ((b - 192) * 64 + (rest.headI - 128), rest.tail)
      else none
    else if b < 240 then
      if 2 ≤ rest.length ∧ 128 ≤ rest.headI ∧ rest.headI < 192 ∧
          128 ≤ rest.tail.headI ∧ rest.tail.headI < 192 ∧
          2048 ≤ (b - 224) * 4096 + (rest.headI - 128) * 64 + (rest.tail.headI - 128) ∧
          ¬(55296 ≤ (b - 224) * 4096 + (rest.headI - 128) * 64 + (rest.tail.headI - 128) ∧
            (b - 224) * 4096 + (rest.headI - 128) * 64 + (rest.tail.headI - 128) < 57344) then
        some ((b - 224) * 4096 + (rest.headI - 128) * 64 + (rest.tail.headI - 128),
          rest.tail.tail)
      else none
    else if b < 248 then
      if 3 ≤ rest.length ∧ 128 ≤ rest.headI ∧ rest.headI < 192 ∧
          128 ≤ rest.tail.headI ∧ rest.tail.headI < 192 ∧
          128 ≤ rest.tail.tail.headI ∧ rest.tail.tail.headI < 192 ∧
          65536 ≤ (b - 240) * 262144 + (rest.headI - 128) * 4096 +
            (rest.tail.headI - 128) * 64 + (rest.tail.tail.headI - 128) ∧
          (b - 240) * 262144 + (rest.headI - 128) * 4096 +
            (rest.tail.headI - 128) * 64 + (rest.tail.tail.headI - 128) < 1114112 then
        some ((b - 240) * 262144 + (rest.headI - 128) * 4096 +
          (rest.tail.headI - 128) * 64 + (rest.tail.tail.headI - 128),
          rest.tail.tail.tail)
      else none
    else
      none

theorem utf8DecodeChar_shrink {l : List Nat} {c : Nat} {rest : List Nat}
    (h : utf8DecodeChar l = some (c, rest)) : rest.length < l.length := by
  cases l with
  | nil => simp [utf8DecodeChar] at h
  | cons b r =>
    simp only [utf8DecodeChar] at h
    split_ifs at h <;> simp at h
    all_goals
      obtain ⟨h1, h2⟩ := h
      subst h2
      simp only [List.length_tail, List.length_cons]
      omega

/-- UTF-8 decoding of a byte sequence, as the test reader's
`bytes.decode('utf-8')` does; `none` on malformed input.  Runs on
fuel bounded by the byte count; `utf8Decode` supplies enough fuel. -/
def utf8DecodeAux : Nat → List Nat → Option (List Nat)
  | _, [] => some []
  | 0, _ :: _ => none
  | fuel + 1, b :: r =>
    match utf8DecodeChar (b :: r) with
    | none => none
    | some (c, rest) => (utf8DecodeAux fuel rest).map (fun cs => c :: cs)

/-- UTF-8 decoding of a byte sequence. -/
def utf8Decode (l : List Nat) : Option (List Nat) :=
  utf8DecodeAux l.length l

theorem utf8DecodeAux_congr : ∀ (f₁ : Nat) (f₂ : Nat) (l : List Nat),
    l.length ≤ f₁ → l.length ≤ f₂ → utf8DecodeAux f₁ l = utf8DecodeAux f₂ l := by
  intro f₁
  induction f₁ with
  | zero =>
    intro f₂ l h₁ _
    cases l with
    | nil => cases f₂ <;> rfl
    | cons b r => simp at h₁
  | succ f ih =>
    intro f₂ l h₁ h₂
    cases l with
    | nil => cases f₂ <;> rfl
    | cons b r =>
      cases f₂ with
      | zero => simp at h₂
      | succ f₂' =>
        simp only [utf8DecodeAux]
        cases hd : utf8DecodeChar (b :: r) with
        | none => rfl
        | some pr =>
          obtain ⟨c, rest⟩ := pr
          have hs := utf8DecodeChar_shrink hd
          simp only [List.length_cons] at h₁ h₂ hs
          show (utf8DecodeAux f rest).map (fun cs => c :: cs) =
            (utf8DecodeAux f₂' rest).map (fun cs => c :: cs)
          rw [ih f₂' rest (by omega) (by omega)]

theorem utf8Decode_nil : utf8Decode [] = some [] := rfl

theorem utf8Decode_cons (b : Nat) (r : List Nat) :
    utf8Decode (b :: r) =
      match utf8DecodeChar (b :: r) with
      | none => none
      | some (c, rest) => (utf8Decode rest).map (fun cs => c :: cs) := by
  show utf8DecodeAux (b :: r).length (b :: r) = _
  simp only [List.length_cons, utf8DecodeAux]
  cases hd : utf8DecodeChar (b :: r) with
  | none => rfl
  | some pr =>
    obtain ⟨c, rest⟩ := pr
    have hs := utf8DecodeChar_shrink hd
    simp only [List.length_cons] at hs
    show (utf8DecodeAux r.length rest).map (fun cs => c :: cs) =
      (utf8Decode rest).map (fun cs => c :: cs)
    rw [utf8DecodeAux_congr r.length rest.length rest (by omega) (by omega)]
    rfl

theorem utf8EncodeChar_ne_nil (c : Nat) : utf8EncodeChar c ≠ [] := by
  unfold utf8EncodeChar
  split_ifs <;> simp

theorem utf8DecodeChar_encodeChar (c : Nat) (h : ValidCodepoint c) (rest : List Nat) :
    utf8DecodeChar (utf8EncodeChar c ++ rest) = some (c, rest) := by
  obtain ⟨hlt, hsur⟩ := h
  unfold utf8EncodeChar
  split_ifs with h1 h2 h3 <;>
    · simp only [List.cons_append, List.nil_append, utf8DecodeChar, List.headI_cons,
        List.tail_cons, List.length_cons]
      split_ifs <;>
        first
          | (exfalso; omega)
          | (simp only [Option.some.injEq, Prod.mk.injEq, eq_self_iff_true, and_true]
             try omega)

theorem utf8Decode_encodeChar (c : Nat) (h : ValidCodepoint c) (rest : List Nat) :
    utf8Decode (utf8EncodeChar c ++ rest) = (utf8Decode rest).map (fun cs => c :: cs) := by
  have hchar := utf8DecodeChar_encodeChar c h rest
  match he : utf8EncodeChar c with
  | [] => exact absurd he (utf8EncodeChar_ne_nil c)
  | b :: bs =>
    rw [he] at hchar
    simp only [List.cons_append] at hchar
    simp only [List.cons_append]
    rw [utf8Decode_cons, hchar]

theorem utf8Decode_encode_append (cps : List Nat)
    (h : ∀ c ∈ cps, ValidCodepoint c) (rest : List Nat) :
    utf8Decode (utf8Encode cps ++ rest) = (utf8Decode rest).map (fun cs => cps ++ cs) := by
  induction cps with
  | nil =>
    simp only [utf8Encode, List.map_nil, List.flatten_nil, List.nil_append]
    cases utf8Decode rest <;> simp
  | cons c cs ih =>
    have hc : ValidCodepoint c := h c (List.mem_cons_self c cs)
    have hcs : ∀ x ∈ cs, ValidCodepoint x := fun x hx => h x (List.mem_cons_of_mem c hx)
    simp only [utf8Encode, List.map_cons, List.flatten_cons, List.append_assoc]
    rw [utf8Decode_encodeChar c hc]
    rw [show (cs.map utf8EncodeChar).flatten = utf8Encode cs from rfl, ih hcs]
    cases utf8Decode rest <;> simp

theorem utf8Decode_encode (cps : List Nat) (h : ∀ c ∈ cps, ValidCodepoint c) :
    utf8Decode (utf8Encode cps) = some cps := by
  have h0 := utf8Decode_encode_append cps h []
  rw [List.append_nil] at h0
  rw [h0, utf8Decode_nil]
  simp

/-! ## Fragment packing and the test suite's reader

`packFragment` is the per-comment block of the wire format (§4.7 of the spec):
4-byte little-endian comment ID, 4-byte little-endian byte length of the
UTF-8-encoded HTML, then the HTML bytes, with no delimiter or padding.
`parseFragments` is translated from the cursor loop in
`CommentDiffFragmentsViewTests._get_fragments`. -/

/-- Modelled from the spec: one packed block of the fragments payload. -/
def packFragment (cid : Nat) (html : List Nat) : List Nat :=
  le32 cid ++ le32 (utf8Encode html).length ++ utf8Encode html

/-- Modelled from the spec: the full payload is the blocks concatenated
directly. -/
def packFragments (frags : List (Nat × List Nat)) : List Nat :=
  (frags.map (fun f => packFragment f.1 f.2)).flatten

/-- The test reader: repeatedly unpack a `<L` comment ID, a `<L` byte length,
then decode that many bytes as UTF-8, until the payload is exhausted. -/
def parseFragments : List Nat → Option (List (Nat × List Nat))
  | [] => some []
  | b0 :: b1 :: b2 :: b3 :: c0 :: c1 :: c2 :: c3 :: rest =>
    if readLE32 c0 c1 c2 c3 ≤ rest.length then
      match utf8Decode (rest.take (readLE32 c0 c1 c2 c3)),
            parseFragments (rest.drop (readLE32 c0 c1 c2 c3)) with
      | some html, some tl => some ((readLE32 b0 b1 b2 b3, html) :: tl)
      | _, _ => none
    else none
  | _ => none
termination_by l => l.length
decreasing_by simp [List.length_drop]; omega

theorem parseFragments_nil : parseFragments [] = some [] := by
  rw [parseFragments]

theorem parseFragments_pack_cons (cid : Nat) (html : List Nat) (rest : List Nat)
    (hid : cid < 4294967296) (hlen : (utf8Encode html).length < 4294967296)
    (hval : ∀ c ∈ html, ValidCodepoint c) :
    parseFragments (packFragment cid html ++ rest) =
      (parseFragments rest).map (fun tl => (cid, html) :: tl) := by
  unfold packFragment le32
  simp only [List.cons_append, List.nil_append, List.append_assoc]
  rw [parseFragments]
  rw [readLE32_le32 cid hid, readLE32_le32 (utf8Encode html).length hlen]
  have htake : (utf8Encode html ++ rest).take (utf8Encode html).length = utf8Encode html :=
    List.take_left _ _
  have hdrop : (utf8Encode html ++ rest).drop (utf8Encode html).length = rest :=
    List.drop_left _ _
  have hle : (utf8Encode html).length ≤ (utf8Encode html ++ rest).length := by
    simp [List.length_append]
  rw [if_pos hle, htake, hdrop, utf8Decode_encode html hval]
  cases parseFragments rest <;> rfl

theorem parseFragments_pack (frags : List (Nat × List Nat))
    (hid : ∀ f ∈ frags, f.1 < 4294967296)
    (hlen : ∀ f ∈ frags, (utf8Encode f.2).length < 4294967296)
    (hval : ∀ f ∈ frags, ∀ c ∈ f.2, ValidCodepoint c) :
    parseFragments (packFragments frags) = some frags := by
  induction frags with
  | nil => exact parseFragments_nil
  | cons f fs ih =>
    obtain ⟨cid, html⟩ := f
    simp only [packFragments, List.map_cons, List.flatten_cons]
    rw [show ((fs.map (fun f => packFragment f.1 f.2)).flatten) = packFragments fs from rfl]
    rw [parseFragments_pack_cons cid html (packFragments fs)
      (hid _ (List.mem_cons_self _ _)) (hlen _ (List.mem_cons_self _ _))
      (hval _ (List.mem_cons_self _ _))]
    rw [ih (fun g hg => hid g (List.mem_cons_of_mem _ hg))
      (fun g hg => hlen g (List.mem_cons_of_mem _ hg))
      (fun g hg => hval g (List.mem_cons_of_mem _ hg))]
    rfl

/-! ## Data model for the comment diff-fragments endpoint

Modelled from the spec (§3, §4.7): review requests with a submitter,
publication state and optional Local Site scope; reviews with an owner and
publication flag; diff comments belonging to a review, each carrying its
rendered HTML fragment (as Unicode code points). -/

/-- Modelled from the spec: a review request (§3). -/
structure ReviewRequest where
  id : Nat
  submitter : Nat
  isPublic : Bool
  localSite : Option Nat
deriving DecidableEq

/-- Modelled from the spec: a review (§3). -/
structure Review where
  id : Nat
  reviewRequestId : Nat
  user : Nat
  isPublic : Bool
deriving DecidableEq

/-- Modelled from the spec: a diff comment with its rendered fragment (§4.7). -/
structure DiffComment where
  id : Nat
  reviewId : Nat
  html : List Nat
deriving DecidableEq

/-- Modelled from the spec: the persistent store visible to the fragments
endpoint, including Local Site membership (§3). -/
structure Database where
  reviews : List Review
  comments : List DiffComment
  siteMembers : List (Nat × Nat)
deriving DecidableEq

/-- Modelled from the spec: Local Site gate — a site-scoped review request is
accessible only to members of that site (§4.7). -/
def localSiteAccessible (db : Database) (rr : ReviewRequest) (u : Option Nat) : Bool :=
  match rr.localSite with
  | none => true
  | some site =>
    match u with
    | none => false
    | some uid => db.siteMembers.any (fun m => m.1 == site && m.2 == uid)

/-- Modelled from the spec: the requester must be able to view the review
request — Local Site membership, and unpublished review requests are visible
only to the owner (§4.1, §4.7). -/
def canViewReviewRequest (db : Database) (rr : ReviewRequest) (u : Option Nat) : Bool :=
  localSiteAccessible db rr u && (rr.isPublic || u == some rr.submitter)

def findComment (db : Database) (cid : Nat) : Option DiffComment :=
  db.comments.find? (fun c => c.id == cid)

def findReview (db : Database) (rid : Nat) : Option Review :=
  db.reviews.find? (fun r => r.id == rid)

/-- Modelled from the spec: a requested comment ID survives filtering iff it
names an existing comment whose review is on this review request and is
published or is a draft owned by the requester (§4.7). -/
def commentEligible (db : Database) (rr : ReviewRequest) (u : Option Nat)
    (cid : Nat) : Option DiffComment :=
  match findComment db cid with
  | none => none
  | some c =>
    match findReview db c.reviewId with
    | none => none
    | some rev =>
      if rev.reviewRequestId == rr.id && (rev.isPublic || u == some rev.user) then
        some c
      else
        none

/-- Modelled from the spec: filter the requested IDs, keeping the eligible
comments in the order the IDs were given (§4.7). -/
def eligibleComments (db : Database) (rr : ReviewRequest) (u : Option Nat)
    (ids : List Nat) : List DiffComment :=
  ids.filterMap (commentEligible db rr u)

/-- Responses of the fragments endpoint: HTTP 403, HTTP 404, or HTTP 200 with
a binary body. -/
inductive FragmentsResponse where
  | forbidden
  | notFound
  | ok (body : List Nat)
deriving DecidableEq

/-- Modelled from the spec: the comment diff-fragments view (§4.7) — 403 when
the review request is inaccessible, 404 when no requested ID survives
filtering, otherwise 200 with the packed payload. -/
def commentDiffFragments (db : Database) (rr : ReviewRequest) (u : Option Nat)
    (ids : List Nat) : FragmentsResponse :=
  if !canViewReviewRequest db rr u then
    FragmentsResponse.forbidden
  else if eligibleComments db rr u ids = [] then
    FragmentsResponse.notFound
  else
    FragmentsResponse.ok
      (packFragments ((eligibleComments db rr u ids).map (fun c => (c.id, c.html))))

theorem findComment_id (db : Database) (cid : Nat) (c : DiffComment)
    (h : findComment db cid = some c) : c.id = cid := by
  unfold findComment at h
  have := List.find?_some h
  simpa using this

theorem commentEligible_some_iff (db : Database) (rr : ReviewRequest) (u : Option Nat)
    (cid : Nat) (c : DiffComment) :
    commentEligible db rr u cid = some c ↔
      (findComment db cid = some c ∧
       ∃ rev, findReview db c.reviewId = some rev ∧ rev.reviewRequestId = rr.id ∧
         (rev.isPublic = true ∨ u = some rev.user)) := by
  unfold commentEligible
  cases hfc : findComment db cid with
  | none =>
    dsimp only
    constructor
    · intro h; cases h
    · rintro ⟨h, -⟩; cases h
  | some c' =>
    dsimp only
    cases hfr : findReview db c'.reviewId with
    | none =>
      dsimp only
      constructor
      · intro h; cases h
      · rintro ⟨hc, rev, hrev, -⟩
        injection hc with hc
        subst hc
        rw [hfr] at hrev; cases hrev
    | some rev' =>
      dsimp only
      constructor
      · intro h
        split_ifs at h with hcond
        injection h with h; subst h
        simp only [Bool.and_eq_true, beq_iff_eq, Bool.or_eq_true] at hcond
        refine ⟨rfl, rev', hfr, hcond.1, ?_⟩
        rcases hcond.2 with hb | hb
        · exact Or.inl hb
        · exact Or.inr (by simpa using hb)
      · rintro ⟨hc, rev, hrev, hrrid, hcnd⟩
        injection hc with hc; subst hc
        rw [hfr] at hrev
        injection hrev with hrev; subst hrev
        have hcond : (rev'.reviewRequestId == rr.id && (rev'.isPublic || u == some rev'.user))
            = true := by
          simp only [Bool.and_eq_true, beq_iff_eq, Bool.or_eq_true]
          refine ⟨hrrid, ?_⟩
          rcases hcnd with hb | hb
          · exact Or.inl hb
          · exact Or.inr (by simpa using hb)
        rw [if_pos hcond]

/-- C1: every successful (HTTP 200) response body of the comment
diff-fragments endpoint is exactly the concatenation, one block per eligible
comment in the filtered order of the requested IDs, of a 4-byte little-endian
comment ID, a 4-byte little-endian UTF-8 byte length, and exactly that many
bytes of UTF-8 HTML with no delimiter or padding; and the test suite's reader
recovers each comment ID and each fragment's exact Unicode text (arbitrary
code points, including outside the BMP) from it. -/
theorem comment_diff_fragments_wire_format (db : Database) (rr : ReviewRequest)
    (u : Option Nat) (ids : List Nat) (body : List Nat)
    (hok : commentDiffFragments db rr u ids = FragmentsResponse.ok body)
    (hid : ∀ c ∈ eligibleComments db rr u ids, c.id < 4294967296)
    (hlen : ∀ c ∈ eligibleComments db rr u ids, (utf8Encode c.html).length < 4294967296)
    (hval : ∀ c ∈ eligibleComments db rr u ids, ∀ cp ∈ c.html, ValidCodepoint cp) :
    body = packFragments ((eligibleComments db rr u ids).map (fun c => (c.id, c.html))) ∧
    parseFragments body =
      some ((eligibleComments db rr u ids).map (fun c => (c.id, c.html))) := by
  unfold commentDiffFragments at hok
  split_ifs at hok with h1 h2
  cases hok
  refine ⟨rfl, parseFragments_pack _ ?_ ?_ ?_⟩
  · intro f hf
    obtain ⟨c, hc, rfl⟩ := List.mem_map.mp hf
    exact hid c hc
  · intro f hf
    obtain ⟨c, hc, rfl⟩ := List.mem_map.mp hf
    exact hlen c hc
  · intro f hf
    obtain ⟨c, hc, rfl⟩ := List.mem_map.mp hf
    exact hval c hc

def sampleComment : DiffComment := ⟨5, 1, [104, 233, 128169]⟩

def sampleReview : Review := ⟨1, 1, 20, true⟩

def sampleDb : Database := ⟨[sampleReview], [sampleComment], []⟩

def sampleRR : ReviewRequest := ⟨1, 10, true, none⟩

def sampleBody : List Nat := packFragments [(5, [104, 233, 128169])]

theorem comment_diff_fragments_wire_format_witness :
    commentDiffFragments sampleDb sampleRR none [5] = FragmentsResponse.ok sampleBody ∧
    (sampleBody = packFragments ((eligibleComments sampleDb sampleRR none [5]).map
        (fun c => (c.id, c.html))) ∧
     parseFragments sampleBody =
       some ((eligibleComments sampleDb sampleRR none [5]).map (fun c => (c.id, c.html)))) :=
  ⟨by decide, comment_diff_fragments_wire_format sampleDb sampleRR none [5] sampleBody
    (by decide) (by decide) (by decide) (by decide)⟩

/-- C2: on an accessible review request, a requested comment ID contributes a
block to the output iff it names an existing comment whose review is on this
review request and is published or is the requester's own draft; all other
requested IDs are silently dropped (the request still succeeds), and if no
requested ID survives filtering the response is HTTP 404. -/
theorem comment_diff_fragments_filtering (db : Database) (rr : ReviewRequest)
    (u : Option Nat) (ids : List Nat)
    (hacc : canViewReviewRequest db rr u = true) :
    (∀ cid ∈ ids,
      ((∃ c ∈ eligibleComments db rr u ids, c.id = cid) ↔
       (∃ c, findComment db cid = some c ∧
         ∃ rev, findReview db c.reviewId = some rev ∧ rev.reviewRequestId = rr.id ∧
           (rev.isPublic = true ∨ u = some rev.user)))) ∧
    (commentDiffFragments db rr u ids = FragmentsResponse.notFound ↔
      eligibleComments db rr u ids = []) ∧
    (eligibleComments db rr u ids ≠ [] →
      commentDiffFragments db rr u ids =
        FragmentsResponse.ok (packFragments ((eligibleComments db rr u ids).map
          (fun c => (c.id, c.html))))) := by
  refine ⟨?_, ?_, ?_⟩
  · intro cid hcid
    constructor
    · rintro ⟨c, hc, rfl⟩
      obtain ⟨cid', hcid', he⟩ := List.mem_filterMap.mp hc
      obtain ⟨hfind, rev, hrev, hrrid, hcnd⟩ := (commentEligible_some_iff _ _ _ _ _).mp he
      have hce : c.id = cid' := findComment_id db cid' c hfind
      rw [hce]
      exact ⟨c, hfind, rev, hrev, hrrid, hcnd⟩
    · rintro ⟨c, hfind, rev, hrev, hrrid, hcnd⟩
      have he : commentEligible db rr u cid = some c :=
        (commentEligible_some_iff _ _ _ _ _).mpr ⟨hfind, rev, hrev, hrrid, hcnd⟩
      exact ⟨c, List.mem_filterMap.mpr ⟨cid, hcid, he⟩, findComment_id db cid c hfind⟩
  · unfold commentDiffFragments
    rw [hacc]
    by_cases he : eligibleComments db rr u ids = [] <;> simp [he]
  · intro hne
    unfold commentDiffFragments
    rw [hacc]
    simp [hne]

def sampleDraftReview : Review := ⟨2, 1, 20, false⟩

def sampleDraftComment : DiffComment := ⟨7, 2, [65]⟩

def sampleDb2 : Database :=
  ⟨[sampleReview, sampleDraftReview], [sampleComment, sampleDraftComment], []⟩

theorem comment_diff_fragments_filtering_witness :
    canViewReviewRequest sampleDb2 sampleRR none = true ∧
    ((∀ cid ∈ [999, 5, 7],
      ((∃ c ∈ eligibleComments sampleDb2 sampleRR none [999, 5, 7], c.id = cid) ↔
       (∃ c, findComment sampleDb2 cid = some c ∧
         ∃ rev, findReview sampleDb2 c.reviewId = some rev ∧
           rev.reviewRequestId = sampleRR.id ∧
           (rev.isPublic = true ∨ none = some rev.user)))) ∧
     (commentDiffFragments sampleDb2 sampleRR none [999, 5, 7] = FragmentsResponse.notFound ↔
       eligibleComments sampleDb2 sampleRR none [999, 5, 7] = []) ∧
     (eligibleComments sampleDb2 sampleRR none [999, 5, 7] ≠ [] →
       commentDiffFragments sampleDb2 sampleRR none [999, 5, 7] =
         FragmentsResponse.ok
           (packFragments ((eligibleComments sampleDb2 sampleRR none [999, 5, 7]).map
             (fun c => (c.id, c.html)))))) :=
  ⟨by decide, comment_diff_fragments_filtering sampleDb2 sampleRR none [999, 5, 7] (by decide)⟩

/-- C3: when the review request exists but is inaccessible to the requester —
unpublished and not owned by the requester, or scoped to a Local Site the
requester is not a member of — the fragments endpoint responds HTTP 403,
regardless of the requested comment IDs. -/
theorem comment_diff_fragments_forbidden (db : Database) (rr : ReviewRequest)
    (u : Option Nat) (ids : List Nat)
    (h : (rr.isPublic = false ∧ u ≠ some rr.submitter) ∨
         (∃ site, rr.localSite = some site ∧
            ∀ uid, u = some uid → (site, uid) ∉ db.siteMembers)) :
    commentDiffFragments db rr u ids = FragmentsResponse.forbidden := by
  have hcv : canViewReviewRequest db rr u = false := by
    unfold canViewReviewRequest
    rcases h with ⟨hpub, hsub⟩ | ⟨site, hsite, hmem⟩
    · have hb : (u == some rr.submitter) = false := by
        simpa using hsub
      simp [hpub, hb]
    · have hls : localSiteAccessible db rr u = false := by
        unfold localSiteAccessible
        rw [hsite]
        cases u with
        | none => rfl
        | some uid =>
          simp only
          rw [List.any_eq_false]
          intro m hm
          simp only [Bool.and_eq_true, beq_iff_eq, not_and]
          intro h1 h2
          have hme : m = (site, uid) := by
            cases m
            simp_all
          exact hmem uid rfl (hme ▸ hm)
      simp [hls]
  unfold commentDiffFragments
  rw [hcv]
  rfl

def sampleRRPrivate : ReviewRequest := ⟨2, 10, false, none⟩

theorem comment_diff_fragments_forbidden_witness :
    ((sampleRRPrivate.isPublic = false ∧ (some 99 : Option Nat) ≠ some sampleRRPrivate.submitter) ∨
     (∃ site, sampleRRPrivate.localSite = some site ∧
        ∀ uid, (some 99 : Option Nat) = some uid → (site, uid) ∉ sampleDb.siteMembers)) ∧
    commentDiffFragments sampleDb sampleRRPrivate (some 99) [5] = FragmentsResponse.forbidden :=
  ⟨Or.inl ⟨rfl, by decide⟩,
   comment_diff_fragments_forbidden sampleDb sampleRRPrivate (some 99) [5]
     (Or.inl ⟨rfl, by decide⟩)⟩

/-! ## Ordering by ascending timestamp

The detail page orders comments and replies by ascending creation timestamp
(§4.1 of the spec), and interdiff file lists by path (§4.3).  Both are
instances of sorting by a key into a linear order. -/

/-- Sort a list by a key drawn from a linear order (ties keep input order). -/
def sortByKey {α : Type} {κ : Type} [LinearOrder κ] (key : α → κ) (l : List α) : List α :=
  List.insertionSort (fun a b => key a ≤ key b) l

theorem sortByKey_sorted {α κ : Type} [LinearOrder κ] (key : α → κ) (l : List α) :
    (sortByKey key l).Sorted (fun a b => key a ≤ key b) := by
  haveI : IsTotal α (fun a b => key a ≤ key b) := ⟨fun a b => le_total (key a) (key b)⟩
  haveI : IsTrans α (fun a b => key a ≤ key b) := ⟨fun _ _ _ hab hbc => le_trans hab hbc⟩
  exact List.sorted_insertionSort _ _

theorem sortByKey_perm {α κ : Type} [LinearOrder κ] (key : α → κ) (l : List α) :
    (sortByKey key l).Perm l :=
  List.perm_insertionSort _ _

/-- Two sorted lists that are permutations of each other and have no duplicate
keys are equal: the sorted output is a function of the multiset of elements,
not of the input (publish/insertion) order. -/
theorem sorted_perm_nodup_eq {α κ : Type} [LinearOrder κ] (key : α → κ) :
    ∀ (l₁ l₂ : List α), l₁.Perm l₂ →
      l₁.Sorted (fun a b => key a ≤ key b) →
      l₂.Sorted (fun a b => key a ≤ key b) →
      (l₁.map key).Nodup → l₁ = l₂ := by
  intro l₁
  induction l₁ with
  | nil =>
    intro l₂ hp _ _ _
    exact (hp.symm.eq_nil).symm
  | cons a t₁ ih =>
    intro l₂ hp hs₁ hs₂ hn
    cases l₂ with
    | nil => cases hp.eq_nil
    | cons b t₂ =>
      rw [List.map_cons] at hn
      have hnc := List.nodup_cons.mp hn
      by_cases hab : a = b
      · subst hab
        rw [ih t₂ hp.cons_inv (List.sorted_cons.mp hs₁).2 (List.sorted_cons.mp hs₂).2 hnc.2]
      · exfalso
        have hbmem : b ∈ a :: t₁ := hp.mem_iff.mpr (List.mem_cons_self b t₂)
        have hbt₁ : b ∈ t₁ := by
          rcases List.mem_cons.mp hbmem with h | h
          · exact absurd h.symm hab
          · exact h
        have hamem : a ∈ b :: t₂ := hp.mem_iff.mp (List.mem_cons_self a t₁)
        have hat₂ : a ∈ t₂ := by
          rcases List.mem_cons.mp hamem with h | h
          · exact absurd h hab
          · exact h
        have h₁ : key a ≤ key b := (List.sorted_cons.mp hs₁).1 b hbt₁
        have h₂ : key b ≤ key a := (List.sorted_cons.mp hs₂).1 a hat₂
        have hk : key a = key b := le_antisymm h₁ h₂
        exact hnc.1 (hk ▸ List.mem_map_of_mem key hbt₁)

/-! ## Review request detail page: comment ordering (§4.1)

A comment or reply carries its creation timestamp and the publication flag of
the review that owns it; the stored list order stands for the order in which
`publish()` was called. -/

/-- Modelled from the spec: a comment or reply on the detail page, with its
creation timestamp and the owning review's publication flag (§3, §4.1). -/
structure TimedComment where
  id : Nat
  text : String
  timestamp : Nat
  reviewPublic : Bool
deriving DecidableEq

/-- Modelled from the spec: the comments of one kind in a review entry,
ordered by ascending creation timestamp of the comment (§4.1). -/
def entryComments (cs : List TimedComment) : List TimedComment :=
  sortByKey (fun c => c.timestamp) cs

/-- Modelled from the spec: a comment's `public_replies`, the replies on
published reply reviews ordered by ascending reply timestamp (§4.1). -/
def publicReplies (rs : List TimedComment) : List TimedComment :=
  sortByKey (fun c => c.timestamp) (rs.filter (fun r => r.reviewPublic))

/-- C4: on the detail page, comments of a kind are ordered by ascending
creation timestamp of the comment, and each comment's `public_replies` are
ordered by ascending reply timestamp; both orders are independent of the
order `publish()` was called — permuting the stored (publish) order of
comments or replies with distinct timestamps leaves the rendered order
unchanged. -/
theorem review_detail_comment_ordering (cs cs' rs rs' : List TimedComment)
    (hc : cs.Perm cs') (hr : rs.Perm rs')
    (hcn : (cs.map (fun c => c.timestamp)).Nodup)
    (hrn : (rs.map (fun c => c.timestamp)).Nodup) :
    (entryComments cs).Sorted (fun a b => a.timestamp ≤ b.timestamp) ∧
    (entryComments cs).Perm cs ∧
    entryComments cs = entryComments cs' ∧
    (publicReplies rs).Sorted (fun a b => a.timestamp ≤ b.timestamp) ∧
    (publicReplies rs).Perm (rs.filter (fun r => r.reviewPublic)) ∧
    publicReplies rs = publicReplies rs' := by
  refine ⟨sortByKey_sorted _ cs, sortByKey_perm _ cs, ?_,
    sortByKey_sorted _ _, sortByKey_perm _ _, ?_⟩
  · apply sorted_perm_nodup_eq (fun c : TimedComment => c.timestamp)
    · exact (sortByKey_perm _ cs).trans (hc.trans (sortByKey_perm _ cs').symm)
    · exact sortByKey_sorted _ cs
    · exact sortByKey_sorted _ cs'
    · exact (((sortByKey_perm _ cs).map _).nodup_iff).mpr hcn
  · apply sorted_perm_nodup_eq (fun c : TimedComment => c.timestamp)
    · exact (sortByKey_perm _ _).trans ((hr.filter _).trans (sortByKey_perm _ _).symm)
    · exact sortByKey_sorted _ _
    · exact sortByKey_sorted _ _
    · refine (((sortByKey_perm _ _).map _).nodup_iff).mpr ?_
      exact ((List.filter_sublist rs).map _).nodup hrn

def wMain : TimedComment := ⟨1, "Comment text 1", 0, true⟩

def wReply1 : TimedComment := ⟨2, "Comment text 2", 2, true⟩

def wReply2 : TimedComment := ⟨3, "Comment text 3", 1, true⟩

theorem review_detail_comment_ordering_witness :
    ([wMain].Perm [wMain] ∧ [wReply2, wReply1].Perm [wReply1, wReply2] ∧
     ([wMain].map (fun c => c.timestamp)).Nodup ∧
     ([wReply2, wReply1].map (fun c => c.timestamp)).Nodup) ∧
    ((entryComments [wMain]).Sorted (fun a b => a.timestamp ≤ b.timestamp) ∧
     (entryComments [wMain]).Perm [wMain] ∧
     entryComments [wMain] = entryComments [wMain] ∧
     (publicReplies [wReply2, wReply1]).Sorted (fun a b => a.timestamp ≤ b.timestamp) ∧
     (publicReplies [wReply2, wReply1]).Perm
       ([wReply2, wReply1].filter (fun r => r.reviewPublic)) ∧
     publicReplies [wReply2, wReply1] = publicReplies [wReply1, wReply2]) :=
  ⟨⟨by decide, by decide, by decide, by decide⟩,
   review_detail_comment_ordering [wMain] [wMain] [wReply2, wReply1] [wReply1, wReply2]
     (by decide) (by decide) (by decide) (by decide)⟩

/-! ## Review request detail page: artifact visibility (§4.1) -/

/-- Modelled from the spec: a file attachment or screenshot with its caption,
active flag (inactive = logically deleted) and draft flag (§3). -/
structure Artifact where
  id : Nat
  caption : String
  active : Bool
  draft : Bool
deriving DecidableEq

/-- Modelled from the spec: the detail page's visible file attachments /
screenshots — filtered to active, with draft ones included only for the
review request's submitter (§4.1). -/
def visibleArtifacts (arts : List Artifact) (submitter : Nat) (u : Option Nat) :
    List Artifact :=
  arts.filter (fun a => a.active && (!a.draft || u == some submitter))

/-- C5: the detail page's `file_attachments` and `screenshots` contain exactly
the artifacts with `active = true`, plus the draft ones only when the
requester is the review request's submitter; draft artifacts are excluded for
every other requester, anonymous or authenticated as someone else. -/
theorem review_detail_artifact_visibility (arts : List Artifact) (submitter : Nat)
    (u : Option Nat) (a : Artifact) :
    a ∈ visibleArtifacts arts submitter u ↔
      (a ∈ arts ∧ a.active = true ∧ (a.draft = true → u = some submitter)) := by
  unfold visibleArtifacts
  simp only [List.mem_filter, Bool.and_eq_true, Bool.or_eq_true, Bool.not_eq_true',
    beq_iff_eq]
  constructor
  · rintro ⟨hm, ha, hd⟩
    refine ⟨hm, ha, fun hdr => ?_⟩
    rcases hd with hd | hd
    · rw [hdr] at hd; cases hd
    · exact hd
  · rintro ⟨hm, ha, hd⟩
    refine ⟨hm, ha, ?_⟩
    by_cases hdr : a.draft = true
    · exact Or.inr (hd hdr)
    · exact Or.inl (by simpa using hdr)

/-! ## Review request detail page: comments on hidden artifacts (§4.1) -/

/-- Modelled from the spec: a file-attachment or screenshot comment, tied to
its artifact and owning review, with a creation timestamp (§3). -/
structure ArtifactComment where
  id : Nat
  text : String
  artifactId : Nat
  reviewId : Nat
  timestamp : Nat
deriving DecidableEq

/-- Modelled from the spec: the comments of one artifact kind in a review's
entry — the review's own comments ordered by ascending timestamp, with no
dependence on artifact visibility (§4.1). -/
def reviewEntryComments (comments : List ArtifactComment) (reviewId : Nat) :
    List ArtifactComment :=
  sortByKey (fun c => c.timestamp) (comments.filter (fun c => c.reviewId == reviewId))

/-- C10: a published review's file-attachment/screenshot comments stay present
and ordered in the review's entry even when the artifact they target is
inactive and hence excluded from the page's artifact listings — hiding an
artifact from the listing does not hide the comments made on it. -/
theorem review_detail_comments_on_inactive_artifacts
    (arts : List Artifact) (submitter : Nat) (u : Option Nat)
    (comments : List ArtifactComment) (rid : Nat) (a : Artifact) (c : ArtifactComment)
    (hina : a.active = false)
    (htarget : c.artifactId = a.id)
    (hmem : c ∈ comments) (hrev : c.reviewId = rid) :
    a ∉ visibleArtifacts arts submitter u ∧
    c ∈ reviewEntryComments comments rid ∧
    (reviewEntryComments comments rid).Sorted (fun x y => x.timestamp ≤ y.timestamp) := by
  refine ⟨?_, ?_, sortByKey_sorted _ _⟩
  · intro hv
    have := ((review_detail_artifact_visibility arts submitter u a).mp hv).2.1
    rw [hina] at this
    cases this
  · unfold reviewEntryComments
    rw [(sortByKey_perm _ _).mem_iff, List.mem_filter]
    exact ⟨hmem, by simpa using hrev⟩

def wArtifact2 : Artifact := ⟨2, "File Attachment 2", false, false⟩

def wArtifacts : List Artifact :=
  [⟨1, "File Attachment 1", true, false⟩, wArtifact2, ⟨3, "File Attachment 3", true, true⟩]

def wComment2 : ArtifactComment := ⟨12, "Comment text 2", 2, 1, 1⟩

def wComments : List ArtifactComment :=
  [⟨11, "Comment text 1", 1, 1, 0⟩, wComment2]

theorem review_detail_comments_on_inactive_artifacts_witness :
    (wArtifact2.active = false ∧ wComment2.artifactId = wArtifact2.id ∧
     wComment2 ∈ wComments ∧ wComment2.reviewId = 1) ∧
    (wArtifact2 ∉ visibleArtifacts wArtifacts 10 none ∧
     wComment2 ∈ reviewEntryComments wComments 1 ∧
     (reviewEntryComments wComments 1).Sorted (fun x y => x.timestamp ≤ y.timestamp)) :=
  ⟨⟨rfl, rfl, by decide, rfl⟩,
   review_detail_comments_on_inactive_artifacts wArtifacts 10 none wComments 1
     wArtifact2 wComment2 rfl rfl (by decide) rfl⟩

/-! ## Review request detail page: ETag (§4.1) -/

/-- Issue-tracking status of a comment (§3). -/
inductive IssueStatus where
  | opened
  | resolved
  | dropped
deriving DecidableEq

def statusCode : IssueStatus → Nat
  | .opened => 0
  | .resolved => 1
  | .dropped => 2

theorem statusCode_injective : Function.Injective statusCode := by
  intro a b h
  cases a <;> cases b <;> first | rfl | cases h

/-- Modelled from the spec: the detail page's ETag reflects the page's full
dependency set, including every comment's issue-tracking status (§4.1); here
the encoding keeps the dependency data and the issue statuses apart so that
each is recoverable. -/
def pageETag (deps : List Nat) (issueStatuses : List IssueStatus) : List Nat :=
  (deps.length :: deps) ++ issueStatuses.map statusCode

/-- C6: with the rest of the page's dependency data unchanged, changing any
comment's issue-tracking status (e.g. OPEN to RESOLVED) between two fetches
changes the detail page's ETag, so the two responses are distinguishable. -/
theorem review_request_etag_issue_status (deps : List Nat)
    (st st' : List IssueStatus) (hne : st ≠ st') :
    pageETag deps st ≠ pageETag deps st' := by
  intro he
  unfold pageETag at he
  have h2 : st.map statusCode = st'.map statusCode := List.append_cancel_left he
  exact hne (List.map_injective_iff.mpr statusCode_injective h2)

theorem review_request_etag_issue_status_witness :
    ([IssueStatus.opened] ≠ [IssueStatus.resolved]) ∧
    pageETag [3, 7] [IssueStatus.opened] ≠ pageETag [3, 7] [IssueStatus.resolved] :=
  ⟨by decide, review_request_etag_issue_status [3, 7] _ _ (by decide)⟩

/-! ## Raw diff download: Content-Disposition (§4.3) -/

/-- The fixed prefix of the raw diff download's Content-Disposition value. -/
def contentDispositionPrefix : List Char := "attachment; filename=".toList

/-- Modelled from the spec: the filename used for the raw diff download — the
diffset's name with commas stripped, so the header value cannot be split into
a second conflicting parameter (§4.3, bug #3704). -/
def rawDiffFilename (name : List Char) : List Char :=
  name.filter (fun ch => ch != ',')

/-- Modelled from the spec: the headers emitted by the raw diff download view
— exactly one Content-Disposition header of the form
`attachment; filename=<filename>` (§4.3). -/
def rawDiffHeaders (name : List Char) : List (List Char × List Char) :=
  [("Content-Disposition".toList, contentDispositionPrefix ++ rawDiffFilename name)]

/-- C7: the raw diff download emits exactly one Content-Disposition header of
the form `attachment; filename=<diffset-name>`; the filename segment (the
value after `attachment; filename=`, as the test slices it) never contains a
comma — so no second conflicting parameter can precede it — and when the
diffset's name is comma-free the value is exactly the name. -/
theorem diff_raw_content_disposition (name : List Char) :
    (rawDiffHeaders name).length = 1 ∧
    (∀ h ∈ rawDiffHeaders name,
      h.1 = "Content-Disposition".toList ∧
      h.2.drop contentDispositionPrefix.length = rawDiffFilename name ∧
      ',' ∉ h.2.drop contentDispositionPrefix.length ∧
      (',' ∉ name → h.2 = contentDispositionPrefix ++ name)) := by
  refine ⟨rfl, ?_⟩
  intro h hmem
  have he : h = ("Content-Disposition".toList,
      contentDispositionPrefix ++ rawDiffFilename name) := by
    simpa [rawDiffHeaders] using hmem
  subst he
  refine ⟨rfl, List.drop_left _ _, ?_, ?_⟩
  · rw [List.drop_left]
    intro hc
    have := List.of_mem_filter hc
    simp at this
  · intro hnc
    have : rawDiffFilename name = name := by
      unfold rawDiffFilename
      apply List.filter_eq_self.mpr
      intro ch hch
      simp only [bne_iff_ne, ne_eq, decide_eq_true_eq]
      intro hceq
      exact hnc (hceq ▸ hch)
    rw [this]

/-! ## Interdiff file list (§4.3) -/

/-- Modelled from the spec: one file's change within a diffset (§3). -/
structure FileDiff where
  sourceFile : List Char
  destFile : List Char
  diffData : List Nat
deriving DecidableEq

/-- Modelled from the spec: one entry of the interdiff response's file list,
carrying its `interfilediff` pairing metadata (§4.3). -/
structure InterdiffFile where
  depotFilename : List Char
  interfilediff : Option FileDiff
deriving DecidableEq

def findByDest (fds : List FileDiff) (path : List Char) : Option FileDiff :=
  fds.find? (fun f => f.destFile == path)

/-- Modelled from the spec: the interdiff file list — files of the later
revision paired with the earlier revision by destination path, files with
identical diffs omitted, changed and new files kept with their pairing
metadata, ordered by path (§4.3). -/
def interdiffFiles (rev1 rev2 : List FileDiff) : List InterdiffFile :=
  sortByKey (fun e => e.depotFilename) (rev2.filterMap (fun f2 =>
    match findByDest rev1 f2.destFile with
    | some f1 =>
      if f1.diffData == f2.diffData then none
      else some ⟨f2.destFile, some f1⟩
    | none => some ⟨f2.destFile, none⟩))

/-- Modelled from the spec: an interdiff request compares two diff revisions,
exposed as `num_diffs` in the diff context (§4.3). -/
def interdiffNumDiffs : Nat := 2

/-- C8: the interdiff response's file list contains exactly the later
revision's files that are new (no pairing in the earlier revision) or whose
diff differs from their paired file — files identical in both revisions are
omitted — each entry carrying its `interfilediff` pairing metadata; the list
is ordered by path, and the diff context reports `num_diffs = 2`. -/
theorem interdiff_file_list (rev1 rev2 : List FileDiff) :
    (∀ e, e ∈ interdiffFiles rev1 rev2 ↔
      ∃ f2 ∈ rev2, e.depotFilename = f2.destFile ∧
        ((findByDest rev1 f2.destFile = none ∧ e.interfilediff = none) ∨
         (∃ f1, findByDest rev1 f2.destFile = some f1 ∧ f1.diffData ≠ f2.diffData ∧
            e.interfilediff = some f1))) ∧
    (interdiffFiles rev1 rev2).Sorted (fun a b => a.depotFilename ≤ b.depotFilename) ∧
    interdiffNumDiffs = 2 := by
  refine ⟨?_, sortByKey_sorted _ _, rfl⟩
  intro e
  unfold interdiffFiles
  rw [(sortByKey_perm _ _).mem_iff, List.mem_filterMap]
  constructor
  · rintro ⟨f2, hf2, hg⟩
    refine ⟨f2, hf2, ?_⟩
    cases hfd : findByDest rev1 f2.destFile with
    | none =>
      rw [hfd] at hg
      dsimp only at hg
      injection hg with hg
      subst hg
      exact ⟨rfl, Or.inl ⟨rfl, rfl⟩⟩
    | some f1 =>
      rw [hfd] at hg
      dsimp only at hg
      split_ifs at hg with hdata
      injection hg with hg
      subst hg
      exact ⟨rfl, Or.inr ⟨f1, rfl, (beq_eq_false_iff_ne).mp (by simpa using hdata), rfl⟩⟩
  · rintro ⟨f2, hf2, hpath, hcase⟩
    refine ⟨f2, hf2, ?_⟩
    rcases hcase with ⟨hfd, hif⟩ | ⟨f1, hfd, hdata, hif⟩
    · rw [hfd]
      dsimp only
      congr 1
      cases e
      simp only at hpath hif
      rw [hpath, hif]
    · rw [hfd]
      dsimp only
      rw [if_neg (by simpa using hdata)]
      congr 1
      cases e
      simp only at hpath hif
      rw [hpath, hif]

/-! ## Web API root resource

Embedded from `reviewboard/webapi/resources/root.py`: `RootResource` is
constructed with a fixed list of eleven child resources and its `get` is the
parent implementation guarded by the `webapi_check_login_required` and
`webapi_check_local_site` decorators (those gates are modelled from the spec,
§4.10). -/

/-- The child-resource list of `RootResource.__init__` in `root.py`. -/
def rootChildResources : List String :=
  ["default-reviewer", "extension", "hosting-service-account", "repository",
   "review-group", "review-request", "search", "server-info", "session", "user",
   "validation"]

/-- Modelled from the spec: the state a root-resource GET is evaluated
against — requester, the sitewide-login flag, the targeted Local Site and
site memberships (§4.10). -/
structure ApiRequest where
  user : Option Nat
  loginRequired : Bool
  localSite : Option Nat
  siteMembers : List (Nat × Nat)
deriving DecidableEq

/-- Responses of the root resource: the shared login-required gate, the shared
Local-Site gate, or the resource listing. -/
inductive RootResponse where
  | loginRequired
  | siteForbidden
  | ok (children : List String)
deriving DecidableEq

/-- Modelled from the spec: the shared Local-Site gate — a request targeting a
Local Site is allowed only for an authenticated member of that site (§4.10). -/
def apiSiteAccessible (req : ApiRequest) : Bool :=
  match req.localSite with
  | none => true
  | some site =>
    match req.user with
    | none => false
    | some uid => req.siteMembers.any (fun m => m.1 == site && m.2 == uid)

/-- `RootResource.get`: the login-required and Local-Site gates (modelled from
the spec §4.10), then the static child listing embedded from `root.py`. -/
def rootGet (req : ApiRequest) : RootResponse :=
  if req.loginRequired && req.user == none then
    RootResponse.loginRequired
  else if !apiSiteAccessible req then
    RootResponse.siteForbidden
  else
    RootResponse.ok rootChildResources

/-- C9: every GET of the Web API root resource that passes the login-required
and Local-Site gates yields exactly the fixed eleven top-level child
resources — default-reviewer, extension, hosting-service-account, repository,
review-group, review-request, search, server-info, session, user and
validation — and the listing is identical on every such request. -/
theorem root_resource_listing (req req' : ApiRequest)
    (hgate : ¬(req.loginRequired = true ∧ req.user = none))
    (hsite : apiSiteAccessible req = true)
    (hgate' : ¬(req'.loginRequired = true ∧ req'.user = none))
    (hsite' : apiSiteAccessible req' = true) :
    rootGet req = RootResponse.ok ["default-reviewer", "extension",
      "hosting-service-account", "repository", "review-group", "review-request",
      "search", "server-info", "session", "user", "validation"] ∧
    rootChildResources.length = 11 ∧
    rootChildResources.Nodup ∧
    rootGet req = rootGet req' := by
  have hok : ∀ r : ApiRequest, ¬(r.loginRequired = true ∧ r.user = none) →
      apiSiteAccessible r = true → rootGet r = RootResponse.ok rootChildResources := by
    intro r hg hs
    unfold rootGet
    have hb : (r.loginRequired && r.user == none) = false := by
      cases hlr : r.loginRequired
      · rfl
      · cases hu : r.user with
        | none => exact absurd (And.intro hlr hu) hg
        | some uid => simp [hu]
    rw [hb, hs]
    rfl
  refine ⟨hok req hgate hsite, rfl, by decide, ?_⟩
  rw [hok req hgate hsite, hok req' hgate' hsite']

def wReqA : ApiRequest := ⟨some 1, true, none, []⟩

def wReqB : ApiRequest := ⟨none, false, none, []⟩

theorem root_resource_listing_witness :
    (¬(wReqA.loginRequired = true ∧ wReqA.user = none) ∧
     apiSiteAccessible wReqA = true ∧
     ¬(wReqB.loginRequired = true ∧ wReqB.user = none) ∧
     apiSiteAccessible wReqB = true) ∧
    (rootGet wReqA = RootResponse.ok ["default-reviewer", "extension",
       "hosting-service-account", "repository", "review-group", "review-request",
       "search", "server-info", "session", "user", "validation"] ∧
     rootChildResources.length = 11 ∧
     rootChildResources.Nodup ∧
     rootGet wReqA = rootGet wReqB) :=
  ⟨⟨by decide, by decide, by decide, by decide⟩,
   root_resource_listing wReqA wReqB (by decide) (by decide) (by decide) (by decide)⟩

end ReviewBoard
